import Mathlib

/-!
Shallow embedding of the parsable parser-combinator engine.

Source of the embedding:
* `src/src/parser.ts` — the generator driver (`Parser`, `#process`, `parse`):
  buffer, per-session cursor, snapshots carrying session identity, streaming
  versus terminal drive loops.
* `src/src/mod.ts` — the combinator algebra (`expect`/`equals`, `noop`,
  `sequence`, `choice`, `repeat`, `catch`, `fatal`, `then`/bind) and the
  error taxonomy (`ParserError`, `FatalParserError`, `ChoiceParserError`,
  `UnexpectedInputError`, end-of-input failures).

A suspended generator is modelled as a request/continuation tree `Comp`:
`yield request` becomes a `req` node whose continuation receives the driver's
response; `return v` becomes `done v`; an uncaught `throw e` becomes `fail e`.
JavaScript `try { yield* p } catch (e) { ... }` becomes `Comp.tryCatch`,
which grafts the handler onto the `fail` leaves of `p`.

Machine integers: all cursors/offsets are array indices and loop counters that
the source only ever increments by one from zero, far below 2^53; they are
modelled as `Nat`.
-/

namespace Parsable

/-- A snapshot token (`ParserSnapshot` in `parser.ts`): it records the session
(`state` object identity there, modelled by a numeric session id here — each
spawned `ParserState` is a fresh object) and the cursor offset at capture. -/
structure ParserSnapshot where
  sid : Nat
  cursor : Nat
  deriving DecidableEq, Repr

/-- The requests a computation can yield to the driver (`ParserRequest`):
peek, consume, take a snapshot, or replay a previously issued snapshot. -/
inductive Request where
  | peek
  | consume
  | takeSnapshot
  | replay (s : ParserSnapshot)
  deriving DecidableEq, Repr

/-- The driver's responses (`ParserResponse`): an input item, the
end-of-input marker, or a snapshot token. -/
inductive Response (ι : Type) where
  | item (x : ι)
  | endOfInput
  | snap (s : ParserSnapshot)
  deriving DecidableEq, Repr

/-- The error taxonomy of `mod.ts` / `parser.ts`, as a value type.
`parserError` is the plain `ParserError` wrapper allocated by `expect`
(carrying the real failure in its `cause`); `fatalError` is
`FatalParserError`; `choiceError` is `ChoiceParserError` (an
`AggregateError`); `snapshotMismatch` is the bare `Error()` thrown by the
driver when a snapshot is replayed into a session other than the one that
produced it; `structuralUsage` is the `TypeError("... has not consumed any
input")` for a computation that completes without suspending;
`internalError` stands for the JavaScript `TypeError` of dereferencing
`furthestError!` when `choice` has zero alternatives. -/
inductive PError (ι ε : Type) where
  | unexpectedInput (value : Option ι) (expectation : ε)
  | endOfInputError
  | parserError (cause : Option (PError ι ε))
  | fatalError (cause : Option (PError ι ε))
  | choiceError (errors : List (PError ι ε))
  | snapshotMismatch
  | structuralUsage
  | internalError

/-- `error instanceof FatalParserError` — the only check the combinators use
to decide recoverability. -/
def PError.isFatal : PError ι ε → Bool
  | .fatalError _ => true
  | _ => false

/-- A resumable parsing computation: the request/continuation tree of the
generator. `done` = the generator returned, `fail` = it threw, `req` = it
yielded a request and waits for the response. -/
inductive Comp (ι ε ω : Type) where
  | done (v : ω)
  | fail (e : PError ι ε)
  | req (r : Request) (k : Response ι → Comp ι ε ω)

/-- Monadic sequencing (`yield* p` followed by more generator body). -/
def Comp.bind : Comp ι ε α → (α → Comp ι ε β) → Comp ι ε β
  | .done v, f => f v
  | .fail e, _ => .fail e
  | .req r k, f => .req r fun x => (k x).bind f

/-- `try { yield* p } catch (e) { handler }`: requests pass through
unchanged; a throw anywhere inside `p` transfers control to the handler at
that point. -/
def Comp.tryCatch : Comp ι ε ω → (PError ι ε → Comp ι ε ω) → Comp ι ε ω
  | .done v, _ => .done v
  | .fail e, h => h e
  | .req r k, h => .req r fun x => (k x).tryCatch h

/-- The cast `as Input | EndOfInput` applied to a response: an item maps to
`some`, the end marker to `none` (a snapshot response never answers a
peek/consume request under the driver; the cast would misinterpret it, here
it is collapsed to `none`). -/
def toOptItem : Response ι → Option ι
  | .item x => some x
  | _ => none

/-- The cast `as Snapshot` applied to a response (only ever used on the
answer to a snapshot request, which is always a snapshot). -/
def toSnap : Response ι → ParserSnapshot
  | .snap s => s
  | _ => ⟨0, 0⟩

/-- `peek()` of `mod.ts`: yield the peek request, return the response as
`Input | EndOfInput`. -/
def peekC : Comp ι ε (Option ι) :=
  .req .peek fun r => .done (toOptItem r)

/-- `eat()` of `mod.ts`: yield the consume request, return the response as
`Input | EndOfInput`. -/
def eatC : Comp ι ε (Option ι) :=
  .req .consume fun r => .done (toOptItem r)

/-- `snapshot()` of `mod.ts`: yield the snapshot request, return the token. -/
def snapshotC : Comp ι ε ParserSnapshot :=
  .req .takeSnapshot fun r => .done (toSnap r)

/-- `equals(expectation)` of `mod.ts`: the asserting test function passed to
`expect`; it throws `UnexpectedInputError(value, expectation)` unless the
peeked value is exactly the expectation (the end-of-input marker, `none`
here, never equals an expectation). -/
def equalsT [DecidableEq ι] (expectation : ι) : Option ι → Except (PError ι ι) Unit :=
  fun value =>
    if value = some expectation then .ok ()
    else .error (.unexpectedInput value expectation)

/-- `expect(test)` of `mod.ts`: peek, run the test, consume and return the
item on success; any error thrown inside is wrapped into the leaf's base
`ParserError` (whose `cause` is the original failure) and re-thrown. -/
def expectC (test : Option ι → Except (PError ι ε) Unit) : Comp ι ε (Option ι) :=
  Comp.tryCatch
    (.req .peek fun r =>
      match test (toOptItem r) with
      | .ok _ => .req .consume fun r2 => .done (toOptItem r2)
      | .error e => .fail e)
    (fun e => .fail (.parserError (some e)))

/-- `noop(result)` of `mod.ts`: a computation that issues no request and
immediately returns its fixed result. -/
def noopC (result : ω) : Comp ι ε ω :=
  .done result

/-- `then` of `mod.ts` (monadic chaining of two parsables). -/
def thenC (p : Comp ι ε α) (next : α → Comp ι ε β) : Comp ι ε β :=
  p.bind next

/-- `map` of `mod.ts`: pure output transform, no requests of its own. -/
def mapC (p : Comp ι ε α) (f : α → β) : Comp ι ε β :=
  p.bind fun v => .done (f v)

/-- `catch` of `mod.ts`: run the computation; a `FatalParserError` is
re-thrown, any other failure invokes the fallback with the raw failure. -/
def catchC (p : Comp ι ε ω) (fallback : PError ι ε → Comp ι ε ω) : Comp ι ε ω :=
  p.tryCatch fun e => if e.isFatal then .fail e else fallback e

/-- `fatal` of `mod.ts`: a `FatalParserError` is re-thrown as-is, any other
failure is wrapped into a `FatalParserError` whose cause is the failure. -/
def fatalC (p : Comp ι ε ω) : Comp ι ε ω :=
  p.tryCatch fun e => if e.isFatal then .fail e else .fail (.fatalError (some e))

/-- `sequence` of `mod.ts`: run each parsable in order, collect outputs. -/
def sequenceC : List (Comp ι ε ω) → Comp ι ε (List ω)
  | [] => .done []
  | p :: ps => p.bind fun v => (sequenceC ps).bind fun vs => .done (v :: vs)

/-- The state of `repeat`'s optional phase (`for (iter = min; iter < max)`),
with `acc` the outputs collected so far and the counter replaced by the
number of remaining attempts. Each attempt snapshots first; a non-fatal
failure replays that snapshot and returns the collected outputs; a fatal
failure propagates. -/
def repeatOpt (p : Comp ι ε ω) : Nat → List ω → Comp ι ε (List ω)
  | 0, acc => .done acc
  | k + 1, acc =>
    .req .takeSnapshot fun r =>
      let errorSnapshot := toSnap r
      Comp.bind
        ((p.bind fun v => Comp.done (Sum.inl v)).tryCatch fun e =>
          if e.isFatal then .fail e else .done (Sum.inr ()))
        (fun res =>
          match res with
          | .inl v => repeatOpt p k (acc ++ [v])
          | .inr _ => .req (.replay errorSnapshot) fun _ => .done acc)

/-- The mandatory phase of `repeat` (`for (iter = 0; iter < min)`), failures
propagate unmodified; afterwards the optional phase runs `rem` times. -/
def repeatMand (p : Comp ι ε ω) : Nat → Nat → List ω → Comp ι ε (List ω)
  | 0, rem, acc => repeatOpt p rem acc
  | m + 1, rem, acc => p.bind fun v => repeatMand p m rem (acc ++ [v])

/-- `repeat(min, max)` of `mod.ts` (finite `max`; the source default
`Infinity` is out of scope of the claims). -/
def repeatC (p : Comp ι ε ω) (min max : Nat) : Comp ι ε (List ω) :=
  repeatMand p min (max - min) []

/-- The loop body of `choice` in `mod.ts`, lines 619-648: try each
alternative; on a non-fatal failure take a post-failure snapshot, update the
retained failure group when the new offset is `>=` the best one so far
(appending to the previously retained errors), replay the initial snapshot
and continue; a fatal failure aborts immediately. After exhaustion, replay
the snapshot of the furthest failure, then re-throw a single retained
failure verbatim or bundle the retained group into a `ChoiceParserError`. -/
def choiceGo (initial : ParserSnapshot)
    (furthest : Option (List (PError ι ε) × ParserSnapshot)) :
    List (Comp ι ε ω) → Comp ι ε ω
  | [] =>
    match furthest with
    | none => .fail .internalError
    | some (errs, fsnap) =>
      .req (.replay fsnap) fun _ =>
        match errs with
        | [e] => .fail e
        | _ => .fail (.choiceError errs)
  | p :: rest =>
    p.tryCatch fun e =>
      if e.isFatal then .fail e
      else
        .req .takeSnapshot fun r =>
          let errorSnapshot := toSnap r
          let furthest' :=
            match furthest with
            | none => some ([e], errorSnapshot)
            | some (errs, fs) =>
              if fs.cursor ≤ errorSnapshot.cursor then some (errs ++ [e], errorSnapshot)
              else some (errs, fs)
          .req (.replay initial) fun _ => choiceGo initial furthest' rest

/-- `choice(...)` of `mod.ts`: take the initial snapshot, then run the loop. -/
def choiceC (ps : List (Comp ι ε ω)) : Comp ι ε ω :=
  .req .takeSnapshot fun r => choiceGo (toSnap r) none ps

/-- Result of running one computation to completion in terminal mode: the
produced output or the uncaught failure, together with the driver cursor at
that moment (the cursor is driver state in the source; errors carry it here
because a `catch` handler resumes at the failure-point cursor). `abort` is
an error raised by the driver itself inside `#process` (the bare `Error()`
for a foreign snapshot token): it propagates out of the drive call without
ever resuming the generator, so no computation-level `catch` can observe
it. -/
inductive RunRes (ι ε ω : Type) where
  | ok (v : ω) (cursor : Nat)
  | error (e : PError ι ε) (cursor : Nat)
  | abort (e : PError ι ε) (cursor : Nat)

/-- Single-session, terminal-mode semantics: how `Parser.#process` of
`parser.ts` answers one session's requests when the whole buffer is present
and no more input will arrive. Peek/consume answer with `buffer[cursor]`
when `cursor < buffer.length` (consume also advances the cursor), otherwise
with the end-of-input marker; a snapshot request answers with a token for
this session at the current cursor; replaying a token of this session
resets the cursor to the token's offset, replaying a foreign token throws. -/
def runComp : Comp ι ε ω → Nat → List ι → Nat → RunRes ι ε ω
  | .done v, c, _, _ => .ok v c
  | .fail e, c, _, _ => .error e c
  | .req .takeSnapshot k, c, buf, sid => runComp (k (.snap ⟨sid, c⟩)) c buf sid
  | .req (.replay s) k, c, buf, sid =>
    if s.sid = sid then runComp (k (.snap s)) s.cursor buf sid
    else .abort .snapshotMismatch c
  | .req .peek k, c, buf, sid =>
    match buf[c]? with
    | some x => runComp (k (.item x)) c buf sid
    | none => runComp (k .endOfInput) c buf sid
  | .req .consume k, c, buf, sid =>
    match buf[c]? with
    | some x => runComp (k (.item x)) (c + 1) buf sid
    | none => runComp (k .endOfInput) c buf sid

/-- An active session of the driver (`ParserState` of `parser.ts`): the
pending request with the suspended continuation, the session-local cursor
into the buffer, and the session id (object identity of the `ParserState`). -/
structure Session (ι ε ω : Type) where
  request : Request
  k : Response ι → Comp ι ε ω
  cursor : Nat
  sid : Nat

/-- The driver's mutable state (`Parser` of `parser.ts`): the retained input
buffer, the optional active session, and the next fresh session id. -/
structure DState (ι ε ω : Type) where
  buffer : List ι
  sess : Option (Session ι ε ω)
  nextSid : Nat

/-- A freshly constructed `Parser` instance: empty buffer, no session. -/
def freshState : DState ι ε ω :=
  ⟨[], none, 0⟩

/-- `state?.cursor ?? 0` of `parser.ts`. -/
def cursorOf (st : DState ι ε ω) : Nat :=
  match st.sess with
  | some s => s.cursor
  | none => 0

/-- Outcome of one `#process` call: the session completed and yielded an
output, or it suspended again, or an exception propagated out. The `eoi`
flag records whether this call answered the pending request with the
end-of-input marker (used to state the streaming guarantee). -/
inductive Step (ι ε ω : Type) where
  | yielded (v : ω) (st : DState ι ε ω) (eoi : Bool)
  | paused (st : DState ι ε ω) (eoi : Bool)
  | failed (e : PError ι ε) (eoi : Bool)

/-- Resuming the generator with the answer (`generator.next(answer)` and the
trailing `result.done` handling of `#process`): on completion prune the
buffer up to the cursor, clear the session and emit the output; otherwise
store the new pending request. -/
def continueWith (buffer : List ι) (cursor sid nextSid : Nat)
    (next : Comp ι ε ω) (eoi : Bool) : Step ι ε ω :=
  match next with
  | .done v => .yielded v ⟨buffer.drop cursor, none, nextSid⟩ eoi
  | .fail e => .failed e eoi
  | .req r k => .paused ⟨buffer, some ⟨r, k, cursor, sid⟩, nextSid⟩ eoi

/-- Answering the pending request of a session (`#process` of `parser.ts`,
lines 162-183): a snapshot request answers with a fresh token for this
session at the current cursor; a replayed token must belong to this session
(else the bare `Error()` is thrown) and resets the cursor to its offset;
peek/consume answer with the buffered item when the cursor points at one
(consume also advances the cursor), else with the end-of-input marker. -/
def stepReq (buffer : List ι) (s : Session ι ε ω) (nextSid : Nat) : Step ι ε ω :=
  match s.request with
  | .takeSnapshot =>
    continueWith buffer s.cursor s.sid nextSid (s.k (.snap ⟨s.sid, s.cursor⟩)) false
  | .replay sn =>
    if sn.sid = s.sid then
      continueWith buffer sn.cursor s.sid nextSid (s.k (.snap sn)) false
    else .failed .snapshotMismatch false
  | .peek =>
    match buffer[s.cursor]? with
    | some x => continueWith buffer s.cursor s.sid nextSid (s.k (.item x)) false
    | none => continueWith buffer s.cursor s.sid nextSid (s.k .endOfInput) true
  | .consume =>
    match buffer[s.cursor]? with
    | some x => continueWith buffer (s.cursor + 1) s.sid nextSid (s.k (.item x)) false
    | none => continueWith buffer s.cursor s.sid nextSid (s.k .endOfInput) true

/-- One `#process` call: if no session is active, spawn one by running the
program to its first suspension point — a program that completes without
suspending throws the structural `TypeError`, a program that throws before
its first request propagates that failure — then answer the (first) pending
request. -/
def processStep (prog : Comp ι ε ω) (st : DState ι ε ω) : Step ι ε ω :=
  match st.sess with
  | some s => stepReq st.buffer s st.nextSid
  | none =>
    match prog with
    | .done _ => .failed .structuralUsage false
    | .fail e => .failed e false
    | .req r k => stepReq st.buffer ⟨r, k, 0, st.nextSid⟩ (st.nextSid + 1)

/-- Result of a drive loop: the outputs yielded so far, whether any request
was answered with end-of-input, and — on normal return — the driver state
and remaining fuel. `spin` marks fuel exhaustion (the source loops forever
on such programs, e.g. one that completes without consuming while buffered
input remains). -/
inductive Res (ι ε ω : Type) where
  | ok (outs : List ω) (eoi : Bool) (st : DState ι ε ω) (fuel : Nat)
  | err (outs : List ω) (eoi : Bool) (e : PError ι ε)
  | spin (outs : List ω) (eoi : Bool)

/-- Prepend one yielded output to a drive-loop result. -/
def Res.consOut (v : ω) : Res ι ε ω → Res ι ε ω
  | .ok outs e st f => .ok (v :: outs) e st f
  | .err outs e x => .err (v :: outs) e x
  | .spin outs e => .spin (v :: outs) e

/-- Prepend several yielded outputs to a drive-loop result. -/
def Res.consOuts (vs : List ω) : Res ι ε ω → Res ι ε ω
  | .ok outs e st f => .ok (vs ++ outs) e st f
  | .err outs e x => .err (vs ++ outs) e x
  | .spin outs e => .spin (vs ++ outs) e

/-- Merge an earlier end-of-input flag into a drive-loop result. -/
def Res.orEoi (b : Bool) : Res ι ε ω → Res ι ε ω
  | .ok outs e st f => .ok outs (b || e) st f
  | .err outs e x => .err outs (b || e) x
  | .spin outs e => .spin outs (b || e)

/-- The outputs of a drive-loop result. -/
def Res.outs : Res ι ε ω → List ω
  | .ok outs _ _ _ => outs
  | .err outs _ _ => outs
  | .spin outs _ => outs

/-- Whether any request was answered with end-of-input during the run. -/
def Res.eoi : Res ι ε ω → Bool
  | .ok _ e _ _ => e
  | .err _ e _ => e
  | .spin _ e => e

/-- The per-item drive loop of `Parser.parse` (`do yield* this.#process();
while (this.#buffer.length > (this.#state?.cursor ?? 0))`): process once
unconditionally, then keep processing while the cursor points below the
buffer's end. -/
def feedLoop (prog : Comp ι ε ω) (st : DState ι ε ω) : Nat → Res ι ε ω
  | 0 => .spin [] false
  | fuel + 1 =>
    match processStep prog st with
    | .failed e eoi => .err [] eoi e
    | .yielded v st' eoi =>
      if cursorOf st' < st'.buffer.length then ((feedLoop prog st' fuel).consOut v).orEoi eoi
      else .ok [v] eoi st' fuel
    | .paused st' eoi =>
      if cursorOf st' < st'.buffer.length then (feedLoop prog st' fuel).orEoi eoi
      else .ok [] eoi st' fuel

/-- The feeding phase of `Parser.parse`: push each input item onto the
buffer, then run the per-item drive loop. -/
def feedItems (prog : Comp ι ε ω) (st : DState ι ε ω) :
    List ι → Nat → Res ι ε ω
  | [], fuel => .ok [] false st fuel
  | x :: xs, fuel =>
    match feedLoop prog { st with buffer := st.buffer ++ [x] } fuel with
    | .ok outs e st' f' => ((feedItems prog st' xs f').consOuts outs).orEoi e
    | .err outs e er => .err outs e er
    | .spin outs e => .spin outs e

/-- The terminal flush loop of `Parser.parse` (`while (this.#state?.result.done
=== false || this.#buffer.length > 0) yield* this.#process()`): keep
processing while a session is suspended or buffered input remains. -/
def flushLoop (prog : Comp ι ε ω) (st : DState ι ε ω) (fuel : Nat) : Res ι ε ω :=
  if st.sess.isSome || !st.buffer.isEmpty then
    match fuel with
    | 0 => .spin [] false
    | fuel + 1 =>
      match processStep prog st with
      | .failed e eoi => .err [] eoi e
      | .yielded v st' eoi => ((flushLoop prog st' fuel).consOut v).orEoi eoi
      | .paused st' eoi => (flushLoop prog st' fuel).orEoi eoi
  else .ok [] false st fuel

/-- `Parser.parse(input, options)` of `parser.ts`: feed the items one at a
time (each followed by its drive loop); when `options.stream` is not set,
run the terminal flush loop afterwards. The fuel bounds the number of
`#process` calls and is threaded through so that consecutive calls on the
same instance compose exactly. -/
def parseD (prog : Comp ι ε ω) (st : DState ι ε ω) (items : List ι)
    (stream : Bool) (fuel : Nat) : Res ι ε ω :=
  match feedItems prog st items fuel with
  | .ok outs e st' f' =>
    if stream then .ok outs e st' f'
    else ((flushLoop prog st' f').consOuts outs).orEoi e
  | .err outs e er => .err outs e er
  | .spin outs e => .spin outs e

/-- The failure-group bookkeeping of `choice` (`mod.ts` lines 629-634),
over offsets instead of snapshot tokens: a new non-fatal failure with
post-failure offset `c` joins the retained group (and moves the furthest
offset to `c`) exactly when `c` is `>=` the furthest offset so far; the
first failure always starts the group (the initial best is `-1`). -/
def choiceUpdate (furthest : Option (List (PError ι ε) × Nat))
    (e : PError ι ε) (c : Nat) : Option (List (PError ι ε) × Nat) :=
  match furthest with
  | none => some ([e], c)
  | some (errs, best) =>
    if best ≤ c then some (errs ++ [e], c) else some (errs, best)

/-- Reference semantics of the `choice` loop, defined directly as a fold
over the alternatives' individual runs: every alternative starts at the
initial cursor `c`; success returns immediately; a fatal failure aborts at
its failure cursor; when all fail non-fatally the cursor is rolled to the
furthest retained offset and the single retained failure is re-raised
verbatim, or the retained group is bundled into a `ChoiceParserError`. -/
def choiceGoRef (c : Nat) (buf : List ι) (sid : Nat) :
    List (Comp ι ε ω) → Option (List (PError ι ε) × Nat) → RunRes ι ε ω
  | [], furthest =>
    match furthest with
    | none => .error .internalError c
    | some ([e], best) => .error e best
    | some (errs, best) => .error (.choiceError errs) best
  | p :: rest, furthest =>
    match runComp p c buf sid with
    | .ok v c' => .ok v c'
    | .abort e c' => .abort e c'
    | .error e c' =>
      if e.isFatal then .error e c'
      else choiceGoRef c buf sid rest (choiceUpdate furthest e c')

/-- Reference semantics of `repeat`'s optional phase: up to `k` further
attempts, each from the cursor the previous one reached; a success appends
its output, a non-fatal failure returns the collected outputs at the
attempt's start cursor (the rollback), a fatal failure aborts. -/
def repeatOptRef (p : Comp ι ε ω) (buf : List ι) (sid : Nat) :
    Nat → List ω → Nat → RunRes ι ε (List ω)
  | 0, acc, c => .ok acc c
  | k + 1, acc, c =>
    match runComp p c buf sid with
    | .ok v c' => repeatOptRef p buf sid k (acc ++ [v]) c'
    | .abort e c' => .abort e c'
    | .error e c' => if e.isFatal then .error e c' else .ok acc c

/-- Reference semantics of `repeat`: `m` mandatory runs whose failures
propagate unmodified, then the optional phase. -/
def repeatMandRef (p : Comp ι ε ω) (buf : List ι) (sid : Nat) :
    Nat → Nat → List ω → Nat → RunRes ι ε (List ω)
  | 0, rem, acc, c => repeatOptRef p buf sid rem acc c
  | m + 1, rem, acc, c =>
    match runComp p c buf sid with
    | .ok v c' => repeatMandRef p buf sid m rem (acc ++ [v]) c'
    | .abort e c' => .abort e c'
    | .error e c' => .error e c'

/-- Protocol discipline for computations, indexed by the session's current
cursor `cur` and its high-water mark `hw` (the furthest cursor reached so
far): the computation only ever replays snapshot tokens it actually
received from the driver, so every replay target is bounded by `hw`. This
is the source's §3 invariant — snapshot tokens identify a capture point and
rollback never advances past it; it rules out tokens forged with the public
`ParserSnapshot` constructor. Continuations are only constrained on the
responses the driver can actually give for the request at hand. -/
inductive Tame {ι ε ω : Type} : Nat → Nat → Comp ι ε ω → Prop where
  | done : Tame cur hw (.done v)
  | fail : Tame cur hw (.fail e)
  | peek (hitem : ∀ x, Tame cur hw (k (.item x)))
      (heoi : Tame cur hw (k .endOfInput)) : Tame cur hw (.req .peek k)
  | consume (hitem : ∀ x, Tame (cur + 1) (Nat.max hw (cur + 1)) (k (.item x)))
      (heoi : Tame cur hw (k .endOfInput)) : Tame cur hw (.req .consume k)
  | snap (h : ∀ s : ParserSnapshot, s.cursor = cur → Tame cur hw (k (.snap s))) :
      Tame cur hw (.req .takeSnapshot k)
  | replay (hle : sn.cursor ≤ hw) (h : Tame sn.cursor hw (k (.snap sn))) :
      Tame cur hw (.req (.replay sn) k)

/-- Driver-state invariant for the streaming guarantee: any active session's
cursor is within the buffer, and its suspended computation is protocol
disciplined with a high-water mark bounded by the buffer length. -/
def Inv (st : DState ι ε ω) : Prop :=
  ∀ s, st.sess = some s →
    ∃ hw, s.cursor ≤ hw ∧ hw ≤ st.buffer.length ∧
      Tame s.cursor hw (.req s.request s.k)

/-- Replaying a previously captured snapshot token (`yield snapshot` in a
computation body): the driver resets the cursor and answers with the token. -/
def replayC (s : ParserSnapshot) : Comp ι ε Unit :=
  .req (.replay s) fun _ => .done ()

/-- `n` consecutive `eat()` steps, collecting the responses. -/
def consumeN : Nat → Comp ι ε (List (Option ι))
  | 0 => .done []
  | n + 1 => eatC.bind fun x => (consumeN n).bind fun xs => .done (x :: xs)

/-- Whether a `#process` call answered its request with end-of-input. -/
def Step.eoiFlag : Step ι ε ω → Bool
  | .yielded _ _ e => e
  | .paused _ e => e
  | .failed _ e => e

section Theorems

variable {ι ε ω α β : Type}

/-- `yield*`-sequencing commutes with the session semantics: run the left
computation first; its failure aborts, its success continues at the cursor
it reached. -/
theorem runComp_bind (p : Comp ι ε α) (f : α → Comp ι ε β) (c : Nat)
    (buf : List ι) (sid : Nat) :
    runComp (p.bind f) c buf sid =
      match runComp p c buf sid with
      | .ok v c' => runComp (f v) c' buf sid
      | .error e c' => .error e c'
      | .abort e c' => .abort e c' := by
  induction p generalizing c with
  | done v => simp [Comp.bind, runComp]
  | fail e => simp [Comp.bind, runComp]
  | req r k ih =>
    cases r with
    | peek =>
      simp only [Comp.bind, runComp]
      cases buf[c]? with
      | some x => exact ih (.item x) c
      | none => exact ih .endOfInput c
    | consume =>
      simp only [Comp.bind, runComp]
      cases buf[c]? with
      | some x => exact ih (.item x) (c + 1)
      | none => exact ih .endOfInput c
    | takeSnapshot =>
      simp only [Comp.bind, runComp]
      exact ih _ c
    | replay s =>
      simp only [Comp.bind, runComp]
      by_cases hs : s.sid = sid
      · simp only [hs, if_pos rfl]
        exact ih _ s.cursor
      · simp [hs]

/-- `try`/`catch` commutes with the session semantics: a failure of the
protected computation transfers control to the handler at the cursor the
failure occurred at. -/
theorem runComp_tryCatch (p : Comp ι ε ω) (h : PError ι ε → Comp ι ε ω)
    (c : Nat) (buf : List ι) (sid : Nat) :
    runComp (p.tryCatch h) c buf sid =
      match runComp p c buf sid with
      | .ok v c' => .ok v c'
      | .error e c' => runComp (h e) c' buf sid
      | .abort e c' => .abort e c' := by
  induction p generalizing c with
  | done v => simp [Comp.tryCatch, runComp]
  | fail e => simp [Comp.tryCatch, runComp]
  | req r k ih =>
    cases r with
    | peek =>
      simp only [Comp.tryCatch, runComp]
      cases buf[c]? with
      | some x => exact ih (.item x) c
      | none => exact ih .endOfInput c
    | consume =>
      simp only [Comp.tryCatch, runComp]
      cases buf[c]? with
      | some x => exact ih (.item x) (c + 1)
      | none => exact ih .endOfInput c
    | takeSnapshot =>
      simp only [Comp.tryCatch, runComp]
      exact ih _ c
    | replay s =>
      simp only [Comp.tryCatch, runComp]
      by_cases hs : s.sid = sid
      · simp only [hs, if_pos rfl]
        exact ih _ s.cursor
      · simp [hs]

/-- Claim C8: the `expect(equals(e))` leaf peeks one item; if it equals the
expectation it consumes it and returns it; otherwise it raises the leaf's
recoverable (non-fatal) failure carrying the observed value (the item, or
the end-of-input marker) and the expectation as the `UnexpectedInputError`
in its cause, and consumes nothing (the cursor is unchanged). -/
theorem claim_C8_expect_equals [DecidableEq ι] (e : ι) (c : Nat)
    (buf : List ι) (sid : Nat) :
    (∀ x, buf[c]? = some x → x = e →
      runComp (expectC (equalsT e)) c buf sid = .ok (some x) (c + 1)) ∧
    (∀ x, buf[c]? = some x → x ≠ e →
      runComp (expectC (equalsT e)) c buf sid =
        .error (.parserError (some (.unexpectedInput (some x) e))) c ∧
      PError.isFatal (.parserError (some (.unexpectedInput (some x) e)) : PError ι ι)
        = false) ∧
    (buf[c]? = none →
      runComp (expectC (equalsT e)) c buf sid =
        .error (.parserError (some (.unexpectedInput none e))) c ∧
      PError.isFatal (.parserError (some (.unexpectedInput none e)) : PError ι ι)
        = false) := by
  refine ⟨?_, ?_, ?_⟩
  · intro x hx hxe
    subst hxe
    simp [expectC, equalsT, Comp.tryCatch, runComp, hx, toOptItem]
  · intro x hx hxe
    refine ⟨?_, rfl⟩
    simp [expectC, equalsT, Comp.tryCatch, runComp, hx, toOptItem, hxe]
  · intro hx
    refine ⟨?_, rfl⟩
    simp [expectC, equalsT, Comp.tryCatch, runComp, hx, toOptItem]

/-- Claim C4: when the wrapped computation fails, `fatal(P)` raises a
`FatalParserError` (re-raising an already-fatal failure verbatim); that
failure is fatal, an enclosing `catch` re-raises it without invoking its
fallback, and an enclosing `choice` aborts immediately without trying the
remaining alternatives. -/
theorem claim_C4_fatal_escapes (p : Comp ι ε ω)
    (fallback : PError ι ε → Comp ι ε ω) (rest : List (Comp ι ε ω))
    (c c₂ : Nat) (buf : List ι) (sid : Nat) (e : PError ι ε)
    (hp : runComp p c buf sid = .error e c₂) :
    runComp (fatalC p) c buf sid =
      .error (if e.isFatal then e else .fatalError (some e)) c₂ ∧
    PError.isFatal (if e.isFatal then e else .fatalError (some e)) = true ∧
    runComp (catchC (fatalC p) fallback) c buf sid =
      .error (if e.isFatal then e else .fatalError (some e)) c₂ ∧
    runComp (choiceC (fatalC p :: rest)) c buf sid =
      .error (if e.isFatal then e else .fatalError (some e)) c₂ := by
  have hf : runComp (fatalC p) c buf sid =
      .error (if e.isFatal then e else .fatalError (some e)) c₂ := by
    rw [fatalC, runComp_tryCatch, hp]
    by_cases hfat : e.isFatal <;> simp [hfat, runComp]
  have hfatal : PError.isFatal (if e.isFatal then e else .fatalError (some e)) = true := by
    by_cases hfat : e.isFatal
    · rwa [if_pos hfat]
    · rw [if_neg hfat]; rfl
  refine ⟨hf, hfatal, ?_, ?_⟩
  · rw [catchC, runComp_tryCatch, hf]
    simp [hfatal, runComp]
  · simp only [choiceC, runComp, toSnap]
    simp only [choiceGo]
    rw [runComp_tryCatch, hf]
    simp [hfatal, runComp]

/-- Specialisation of `runComp_bind` to a successful left computation. -/
theorem runComp_bind_ok (p : Comp ι ε α) (f : α → Comp ι ε β)
    {c c' : Nat} {buf : List ι} {sid : Nat} {v : α}
    (hp : runComp p c buf sid = .ok v c') :
    runComp (p.bind f) c buf sid = runComp (f v) c' buf sid := by
  rw [runComp_bind, hp]

/-- The session semantics of `n` consecutive `eat()` steps when `n` items
are buffered past the cursor: they return exactly those items in input
order and advance the cursor by `n`. -/
theorem runComp_consumeN (n c sid : Nat) (buf : List ι)
    (h : c + n ≤ buf.length) :
    runComp (consumeN n : Comp ι ε (List (Option ι))) c buf sid =
      .ok (((buf.drop c).take n).map some) (c + n) := by
  induction n generalizing c with
  | zero => simp [consumeN, runComp]
  | succ n ih =>
    have hc : c < buf.length := by omega
    have hx : buf[c]? = some buf[c] := List.getElem?_eq_getElem hc
    simp only [consumeN]
    have he : runComp (eatC : Comp ι ε (Option ι)) c buf sid =
        .ok (some buf[c]) (c + 1) := by
      simp [eatC, runComp, hx, toOptItem]
    rw [runComp_bind_ok _ _ he]
    rw [runComp_bind_ok _ _ (ih (c + 1) (by omega))]
    have hlist : (buf.drop c).take (n + 1) = buf[c] :: (buf.drop (c + 1)).take n := by
      rw [List.drop_eq_getElem_cons hc, List.take_succ_cons]
    simp only [runComp, hlist, List.map_cons, RunRes.ok.injEq]
    exact ⟨trivial, by omega⟩

/-- Claim C3: within one session, capturing a snapshot, consuming `n`
buffered items, then replaying the snapshot restores the cursor to the
captured offset; whatever the computation does next behaves exactly as it
would have immediately before the `n` consumptions — in particular the `n`
items remain buffered and are re-delivered in the same order. -/
theorem claim_C3_snapshot_roundtrip (n c sid : Nat) (buf : List ι)
    (rest : ParserSnapshot → List (Option ι) → Comp ι ε ω)
    (h : c + n ≤ buf.length) :
    runComp (snapshotC.bind fun s => (consumeN n).bind fun xs =>
        (replayC s).bind fun _ => rest s xs) c buf sid =
      runComp (rest ⟨sid, c⟩ (((buf.drop c).take n).map some)) c buf sid := by
  have hs : runComp (snapshotC : Comp ι ε ParserSnapshot) c buf sid =
      .ok ⟨sid, c⟩ c := by
    simp [snapshotC, runComp, toSnap]
  rw [runComp_bind_ok _ _ hs]
  rw [runComp_bind_ok _ _ (runComp_consumeN n c sid buf h)]
  have hr : runComp (replayC ⟨sid, c⟩ : Comp ι ε Unit) (c + n) buf sid =
      .ok () c := by
    simp [replayC, runComp]
  rw [runComp_bind_ok _ _ hr]

/-- Witness for C8: `expect(equals(1))` succeeds on a buffered `1` and
fails non-fatally, consuming nothing, on a buffered `2`. -/
theorem claim_C8_witness :
    runComp (expectC (equalsT 1)) 0 [1] 0 = .ok (some 1) 1 ∧
    runComp (expectC (equalsT 1)) 0 [2] 0 =
      .error (.parserError (some (.unexpectedInput (some 2) 1))) 0 :=
  ⟨(claim_C8_expect_equals 1 0 [1] 0).1 1 rfl rfl,
   ((claim_C8_expect_equals 1 0 [2] 0).2.1 2 rfl (by decide)).1⟩

/-- Witness for C4: `catch(fatal(expect(equals(true))))` on input `[false]`
still raises (a fatal failure), rather than recovering. -/
theorem claim_C4_witness :
    runComp (catchC (fatalC (expectC (equalsT true))) (fun _ => noopC none))
        0 [false] 0 =
      .error (.fatalError (some (.parserError
        (some (.unexpectedInput (some false) true))))) 0 := by
  have h := claim_C4_fatal_escapes (expectC (equalsT true))
    (fun _ => noopC none) [] 0 0 [false] 0
    (.parserError (some (.unexpectedInput (some false) true))) rfl
  simpa [PError.isFatal] using h.2.2.1

/-- Witness for C3: snapshot, consume two of three buffered items, replay;
the continuation then runs exactly as at the original cursor, receiving the
two items that were consumed and rolled back. -/
theorem claim_C3_witness :
    runComp
        ((snapshotC.bind fun s => (consumeN 2).bind fun xs =>
          (replayC s).bind fun _ => noopC (s, xs)) : Comp Nat Nat _)
        0 [10, 20, 30] 0 =
      runComp (noopC ((⟨0, 0⟩ : ParserSnapshot), [some 10, some 20]))
        0 [10, 20, 30] 0 :=
  claim_C3_snapshot_roundtrip 2 0 0 [10, 20, 30]
    (fun s xs => noopC (s, xs)) (by decide)

/-- The optional phase of `repeat` matches its reference semantics. -/
theorem runComp_repeatOpt (p : Comp ι ε ω) (buf : List ι) (sid : Nat) :
    ∀ (k : Nat) (acc : List ω) (c : Nat),
    runComp (repeatOpt p k acc) c buf sid = repeatOptRef p buf sid k acc c := by
  intro k
  induction k with
  | zero => intro acc c; simp [repeatOpt, repeatOptRef, runComp]
  | succ k ih =>
    intro acc c
    simp only [repeatOpt, repeatOptRef, runComp, toSnap]
    rw [runComp_bind, runComp_tryCatch, runComp_bind]
    cases hrp : runComp p c buf sid with
    | ok v c' =>
      simp only [runComp]
      exact ih (acc ++ [v]) c'
    | error e c' =>
      by_cases hf : e.isFatal <;> simp [hf, runComp]
    | abort e c' => simp

/-- The mandatory phase of `repeat` matches its reference semantics. -/
theorem runComp_repeatMand (p : Comp ι ε ω) (buf : List ι) (sid : Nat) :
    ∀ (m rem : Nat) (acc : List ω) (c : Nat),
    runComp (repeatMand p m rem acc) c buf sid =
      repeatMandRef p buf sid m rem acc c := by
  intro m
  induction m with
  | zero =>
    intro rem acc c
    simp only [repeatMand, repeatMandRef]
    exact runComp_repeatOpt p buf sid rem acc c
  | succ m ih =>
    intro rem acc c
    simp only [repeatMand, repeatMandRef]
    rw [runComp_bind]
    cases hrp : runComp p c buf sid with
    | ok v c' => exact ih rem (acc ++ [v]) c'
    | error e c' => rfl
    | abort e c' => rfl

/-- Claim C5: `repeat(min, max)` runs the wrapped computation exactly `min`
times unconditionally (any failure propagates), then attempts at most
`max - min` further runs, snapshotting before each attempt; on the first
non-fatal failure it rolls back to that snapshot and returns the outputs
collected so far, while a fatal failure propagates immediately (this is the
reference recursion `repeatMandRef`/`repeatOptRef`). In particular,
`repeat(2, 4)` over a computation that matches exactly the 3 available
occurrences returns exactly 3 results with the cursor after the third. -/
theorem claim_C5_repeat :
    (∀ (ι ε ω : Type) (p : Comp ι ε ω) (mn mx c sid : Nat) (buf : List ι),
      runComp (repeatC p mn mx) c buf sid =
        repeatMandRef p buf sid mn (mx - mn) [] c) ∧
    runComp (repeatC (expectC (equalsT 7)) 2 4) 0 [7, 7, 7] 0 =
      .ok [some 7, some 7, some 7] 3 :=
  ⟨fun _ _ _ p mn mx c sid buf => runComp_repeatMand p buf sid mn (mx - mn) [] c,
   rfl⟩

/-- The `choice` loop matches its reference fold, provided every retained
post-failure snapshot belongs to the running session (which is how the loop
creates them). -/
theorem runComp_choiceGo (buf : List ι) (sid c : Nat) :
    ∀ (ps : List (Comp ι ε ω))
      (furthestC : Option (List (PError ι ε) × ParserSnapshot)),
    (∀ es s, furthestC = some (es, s) → s.sid = sid) →
    runComp (choiceGo ⟨sid, c⟩ furthestC ps) c buf sid =
      choiceGoRef c buf sid ps (furthestC.map fun pr => (pr.1, pr.2.cursor)) := by
  intro ps
  induction ps with
  | nil =>
    intro furthestC hsid
    cases furthestC with
    | none => simp [choiceGo, choiceGoRef, runComp]
    | some pr =>
      obtain ⟨errs, fsnap⟩ := pr
      have hs : fsnap.sid = sid := hsid errs fsnap rfl
      simp only [choiceGo, choiceGoRef, runComp, Option.map_some, hs, if_pos rfl]
      match errs with
      | [] => simp [runComp]
      | [e] => simp [runComp]
      | e1 :: e2 :: es => simp [runComp]
  | cons p rest ih =>
    intro furthestC hsid
    simp only [choiceGo, choiceGoRef]
    rw [runComp_tryCatch]
    cases hrp : runComp p c buf sid with
    | ok v c' => rfl
    | abort e c' => rfl
    | error e c' =>
      by_cases hf : e.isFatal
      · simp [hf, runComp]
      · simp only [hf, Bool.false_eq_true, if_false, runComp, toSnap]
        rw [ih]
        · cases furthestC with
          | none => simp [choiceUpdate]
          | some pr =>
            obtain ⟨errs, fs⟩ := pr
            simp only [Option.map_some, choiceUpdate]
            by_cases hle : fs.cursor ≤ c' <;> simp [hle]
        · intro es s hmem
          cases furthestC with
          | none =>
            simp only [Option.some.injEq, Prod.mk.injEq] at hmem
            rw [← hmem.2]
          | some pr =>
            obtain ⟨errs, fs⟩ := pr
            simp only at hmem
            by_cases hle : fs.cursor ≤ c'
            · rw [if_pos hle] at hmem
              simp only [Option.some.injEq, Prod.mk.injEq] at hmem
              rw [← hmem.2]
            · rw [if_neg hle] at hmem
              simp only [Option.some.injEq, Prod.mk.injEq] at hmem
              rw [← hmem.2]
              exact hsid errs fs rfl

/-- Amended claim C1: when every alternative of `choice` fails non-fatally,
the combinator rolls the cursor back to the furthest post-failure offset,
but the retained failure group is the nondecreasing-record chain of the
scan — each failure is appended when its post-failure offset is `>=` every
previously retained one — so it always contains the first failure and may
contain earlier, shallower failures recorded before the furthest one. A
failure is re-raised verbatim exactly when that chain is a singleton (e.g.
when the first alternative is the strictly furthest); otherwise the whole
chain — not just the failures tied at the furthest offset — is bundled into
the aggregate `ChoiceParserError`. Formally: `choice` equals the reference
fold `choiceGoRef` built on `choiceUpdate`. -/
theorem claim_C1_amended_choice :
    ∀ (ι ε ω : Type) (ps : List (Comp ι ε ω)) (c sid : Nat) (buf : List ι),
    runComp (choiceC ps) c buf sid = choiceGoRef c buf sid ps none := by
  intro ι ε ω ps c sid buf
  simp only [choiceC, runComp, toSnap]
  exact runComp_choiceGo buf sid c ps none (by intro es s h; cases h)

/-- Counterexample to C1 as stated: two alternatives fail after consuming 0
and 1 items respectively, so exactly one failure (the second) is in the
furthest group; the claim mandates re-raising that failure verbatim, but
the code raises an aggregate bundling both failures. -/
theorem claim_C1_counterexample :
    runComp (choiceC [expectC (equalsT 9),
        (expectC (equalsT 1)).bind fun _ => expectC (equalsT 9)]) 0 [1, 2] 0 =
      .error (.choiceError
        [.parserError (some (.unexpectedInput (some 1) 9)),
         .parserError (some (.unexpectedInput (some 2) 9))]) 1 ∧
    (RunRes.error (ι := Nat) (ω := Option Nat) (.choiceError
        [.parserError (some (.unexpectedInput (some 1) 9)),
         .parserError (some (.unexpectedInput (some 2) 9))]) 1 ≠
      RunRes.error (.parserError (some (.unexpectedInput (some 2) 9))) 1) :=
  ⟨rfl, by intro h; injection h with h1 h2; exact PError.noConfusion h1⟩

/-- `consOuts []` is a no-op. -/
theorem Res.consOuts_nil (r : Res ι ε ω) : r.consOuts [] = r := by
  cases r <;> rfl

/-- `orEoi false` is a no-op. -/
theorem Res.orEoi_false (r : Res ι ε ω) : r.orEoi false = r := by
  cases r <;> simp [Res.orEoi]

/-- Prepending output lists composes by concatenation. -/
theorem Res.consOuts_consOuts (r : Res ι ε ω) (a b : List ω) :
    (r.consOuts b).consOuts a = r.consOuts (a ++ b) := by
  cases r <;> simp [Res.consOuts]

/-- Merging end-of-input flags composes by disjunction. -/
theorem Res.orEoi_orEoi (r : Res ι ε ω) (a b : Bool) :
    (r.orEoi b).orEoi a = r.orEoi (a || b) := by
  cases r <;> simp [Res.orEoi, Bool.or_assoc]

/-- Output prepending and flag merging commute. -/
theorem Res.consOuts_orEoi (r : Res ι ε ω) (a : List ω) (b : Bool) :
    (r.orEoi b).consOuts a = (r.consOuts a).orEoi b := by
  cases r <;> rfl

/-- A streaming `parse` call is exactly the feeding phase. -/
theorem parseD_stream (prog : Comp ι ε ω) (st : DState ι ε ω)
    (items : List ι) (fuel : Nat) :
    parseD prog st items true fuel = feedItems prog st items fuel := by
  simp only [parseD]
  cases feedItems prog st items fuel <;> simp

/-- Feeding a concatenation of chunks equals feeding the chunks one after
the other on the same instance, threading state, fuel, outputs and the
end-of-input flag. -/
theorem feedItems_append (prog : Comp ι ε ω) :
    ∀ (xs ys : List ι) (st : DState ι ε ω) (fuel : Nat),
    feedItems prog st (xs ++ ys) fuel =
      match feedItems prog st xs fuel with
      | .ok o e st1 f1 => ((feedItems prog st1 ys f1).consOuts o).orEoi e
      | .err o e er => .err o e er
      | .spin o e => .spin o e := by
  intro xs
  induction xs with
  | nil =>
    intro ys st fuel
    simp [feedItems, Res.consOuts_nil, Res.orEoi_false]
  | cons x xs ih =>
    intro ys st fuel
    simp only [List.cons_append, feedItems]
    cases hl : feedLoop prog { st with buffer := st.buffer ++ [x] } fuel with
    | ok o e st' f' =>
      simp only [List.append_eq]
      rw [ih]
      cases hx : feedItems prog st' xs f' with
      | ok o2 e2 st2 f2 =>
        simp only
        cases hy : feedItems prog st2 ys f2 <;>
          simp [hy, Res.consOuts, Res.orEoi, Bool.or_assoc]
      | err o2 e2 er => simp [Res.consOuts, Res.orEoi]
      | spin o2 e2 => simp [Res.consOuts, Res.orEoi]
    | err o e er => simp
    | spin o e => simp

/-- Claim C2: for every input sequence `S` and split point `k`, one
non-streaming `parse(S)` call on a driver instance produces exactly the
results of `parse(S[0:k], streaming)` followed by `parse(S[k:],
non-streaming)` on the same instance: the outputs concatenate in order (and
the end-of-input flags merge), with state and fuel threaded through.  This
holds unconditionally — with the step budget made explicit, even failing or
starving runs decompose identically. -/
theorem claim_C2_split_streaming (prog : Comp ι ε ω) (st : DState ι ε ω)
    (S : List ι) (k fuel : Nat) :
    parseD prog st S false fuel =
      match parseD prog st (S.take k) true fuel with
      | .ok o1 e1 st1 f1 => ((parseD prog st1 (S.drop k) false f1).consOuts o1).orEoi e1
      | .err o e er => .err o e er
      | .spin o e => .spin o e := by
  rw [parseD_stream]
  conv_lhs => rw [show S = S.take k ++ S.drop k from (List.take_append_drop k S).symm]
  simp only [parseD]
  rw [feedItems_append]
  cases h1 : feedItems prog st (S.take k) fuel with
  | ok o1 e1 st1 f1 =>
    simp only
    cases h2 : feedItems prog st1 (S.drop k) f1 with
    | ok o2 e2 st2 f2 =>
      simp only
      cases hfl : flushLoop prog st2 f2 <;>
        simp [hfl, Res.consOuts, Res.orEoi, Bool.or_assoc]
    | err o2 e2 er => simp [Res.consOuts, Res.orEoi]
    | spin o2 e2 => simp [Res.consOuts, Res.orEoi]
  | err o e er => simp
  | spin o e => simp

/-- Claim C6: a computation that completes without ever suspending (a
request-free computation is exactly `noop(v)`): driving it never emits its
return value as an output, and as soon as the driver actually spawns it —
any parse call with at least one input item (and a step of fuel) — the
structural `TypeError` ("parser has not consumed any input") is raised. -/
theorem claim_C6_no_consumption_guard :
    (∀ (ι ε ω : Type) (v : ω) (items : List ι) (stream : Bool) (fuel : Nat),
      (parseD (noopC v : Comp ι ε ω) freshState items stream fuel).outs = []) ∧
    (∀ (ι ε ω : Type) (v : ω) (x : ι) (items : List ι) (stream : Bool) (fuel : Nat),
      parseD (noopC v : Comp ι ε ω) freshState (x :: items) stream (fuel + 1) =
        .err [] false .structuralUsage) := by
  have hspawn : ∀ (ι ε ω : Type) (v : ω) (x : ι) (items : List ι)
      (stream : Bool) (fuel : Nat),
      parseD (noopC v : Comp ι ε ω) freshState (x :: items) stream (fuel + 1) =
        .err [] false .structuralUsage := by
    intro ι ε ω v x items stream fuel
    rfl
  refine ⟨?_, hspawn⟩
  intro ι ε ω v items stream fuel
  cases items with
  | nil =>
    cases stream <;> cases fuel <;>
      simp [parseD, feedItems, flushLoop, freshState, Res.outs,
        Res.consOuts, Res.orEoi]
  | cons x xs =>
    cases fuel with
    | zero => rfl
    | succ fuel => rw [hspawn]; rfl

/-- Claim C7: replaying a snapshot token into a session other than the one
that produced it makes `#process` throw the usage error before touching any
state: the step fails with the mismatch error, no cursor is moved, no
output is emitted. Together with the driver handing out strictly increasing
session ids (`nextSid`), a token from a completed session can never match a
later session, so items pruned when the session completed are not
re-observable through a stale token. -/
theorem claim_C7_foreign_snapshot (prog : Comp ι ε ω) (st : DState ι ε ω)
    (s : Session ι ε ω) (sn : ParserSnapshot)
    (hs : st.sess = some s) (hr : s.request = .replay sn)
    (hsid : sn.sid ≠ s.sid) :
    processStep prog st = .failed .snapshotMismatch false := by
  simp [processStep, hs, stepReq, hr, hsid]

/-- Witness for C7: a session with id 0 whose pending request replays a
token of session 5 fails with the usage error. -/
theorem claim_C7_witness :
    processStep (noopC 0 : Comp Nat Nat Nat)
      ⟨[], some ⟨.replay ⟨5, 0⟩, (fun _ => .done 0), 0, 0⟩, 1⟩ =
      .failed .snapshotMismatch false :=
  claim_C7_foreign_snapshot (noopC 0) _ _ ⟨5, 0⟩ rfl rfl (by decide)

/-- The terminal flush loop only returns normally once its condition is
false: no suspended session and an empty buffer. -/
theorem flushLoop_ok_state (prog : Comp ι ε ω) :
    ∀ (fuel : Nat) (st : DState ι ε ω) (outs : List ω) (e : Bool)
      (st' : DState ι ε ω) (f' : Nat),
    flushLoop prog st fuel = .ok outs e st' f' →
    st'.buffer = [] ∧ st'.sess = none := by
  intro fuel
  induction fuel with
  | zero =>
    intro st outs e st' f' h
    rw [flushLoop] at h
    split at h
    · simp at h
    · next hc =>
      simp only [Res.ok.injEq] at h
      obtain ⟨-, -, hst, -⟩ := h
      subst hst
      constructor
      · cases hbb : st.buffer with
        | nil => rfl
        | cons b bs => rw [hbb] at hc; simp at hc
      · cases hss : st.sess with
        | none => rfl
        | some s => rw [hss] at hc; simp at hc
  | succ fuel ih =>
    intro st outs e st' f' h
    rw [flushLoop] at h
    split at h
    · split at h
      · simp at h
      · next v st2 eoi hps =>
        cases hfl : flushLoop prog st2 fuel with
        | ok o2 e2 stx fx =>
          rw [hfl] at h
          simp only [Res.consOut, Res.orEoi, Res.ok.injEq] at h
          obtain ⟨-, -, hst, -⟩ := h
          subst hst
          exact ih st2 o2 e2 stx fx hfl
        | err o2 e2 er => rw [hfl] at h; simp [Res.consOut, Res.orEoi] at h
        | spin o2 e2 => rw [hfl] at h; simp [Res.consOut, Res.orEoi] at h
      · next st2 eoi hps =>
        cases hfl : flushLoop prog st2 fuel with
        | ok o2 e2 stx fx =>
          rw [hfl] at h
          simp only [Res.orEoi, Res.ok.injEq] at h
          obtain ⟨-, -, hst, -⟩ := h
          subst hst
          exact ih st2 o2 e2 stx fx hfl
        | err o2 e2 er => rw [hfl] at h; simp [Res.orEoi] at h
        | spin o2 e2 => rw [hfl] at h; simp [Res.orEoi] at h
    · next hc =>
      simp only [Res.ok.injEq] at h
      obtain ⟨-, -, hst, -⟩ := h
      subst hst
      constructor
      · cases hbb : st.buffer with
        | nil => rfl
        | cons b bs => rw [hbb] at hc; simp at hc
      · cases hss : st.sess with
        | none => rfl
        | some s => rw [hss] at hc; simp at hc

/-- Claim C10: after a non-streaming `parse` call that completes its
iteration normally, the driver instance holds an empty buffer and no live
session — so a following `parse` call spawns a fresh computation whose
cursor starts at 0 and which cannot observe any item of the earlier call. -/
theorem claim_C10_terminal_reset (prog : Comp ι ε ω) (st : DState ι ε ω)
    (items : List ι) (fuel : Nat) (outs : List ω) (e : Bool)
    (st' : DState ι ε ω) (f' : Nat)
    (h : parseD prog st items false fuel = .ok outs e st' f') :
    st'.buffer = [] ∧ st'.sess = none := by
  simp only [parseD] at h
  split at h
  · next o1 e1 st1 f1 hf =>
    simp only [Bool.false_eq_true, if_false] at h
    cases hfl : flushLoop prog st1 f1 with
    | ok o2 e2 stx fx =>
      rw [hfl] at h
      simp only [Res.consOuts, Res.orEoi, Res.ok.injEq] at h
      obtain ⟨-, -, hst, -⟩ := h
      subst hst
      exact flushLoop_ok_state prog f1 st1 o2 e2 stx fx hfl
    | err o2 e2 er => rw [hfl] at h; simp [Res.consOuts, Res.orEoi] at h
    | spin o2 e2 => rw [hfl] at h; simp [Res.consOuts, Res.orEoi] at h
  · simp at h
  · simp at h

/-- Witness for C10: driving `expect(equals(1))` over `[1]` terminally
completes with one output and leaves the instance with an empty buffer and
no session. -/
theorem claim_C10_witness :
    parseD (expectC (equalsT 1)) freshState [1] false 9 =
      .ok [some 1] false ⟨[], none, 1⟩ 7 ∧
    ((⟨[], none, 1⟩ : DState Nat Nat (Option Nat)).buffer = [] ∧
     (⟨[], none, 1⟩ : DState Nat Nat (Option Nat)).sess = none) :=
  ⟨by rfl, claim_C10_terminal_reset (expectC (equalsT 1)) freshState [1] 9
    [some 1] false ⟨[], none, 1⟩ 7 (by rfl)⟩

/-- Resuming the generator reports exactly the end-of-input flag it was
given. -/
theorem continueWith_eoiFlag (buf : List ι) (cursor sid nsid : Nat)
    (next : Comp ι ε ω) (eoi : Bool) :
    (continueWith buf cursor sid nsid next eoi).eoiFlag = eoi := by
  cases next <;> rfl

/-- A `#process` call made while the cursor points below the buffer's end
never answers with end-of-input. -/
theorem processStep_no_eoi (prog : Comp ι ε ω) (st : DState ι ε ω)
    (hc : cursorOf st < st.buffer.length) :
    (processStep prog st).eoiFlag = false := by
  have hstep : ∀ (s : Session ι ε ω) (nsid : Nat), s.cursor < st.buffer.length →
      (stepReq st.buffer s nsid).eoiFlag = false := by
    intro s nsid hlt
    have hx : st.buffer[s.cursor]? = some st.buffer[s.cursor] :=
      List.getElem?_eq_getElem hlt
    cases hr : s.request with
    | peek => simp [stepReq, hr, hx, continueWith_eoiFlag]
    | consume => simp [stepReq, hr, hx, continueWith_eoiFlag]
    | takeSnapshot => simp [stepReq, hr, continueWith_eoiFlag]
    | replay sn =>
      by_cases hsid : sn.sid = s.sid
      · simp [stepReq, hr, hsid, continueWith_eoiFlag]
      · simp [stepReq, hr, hsid, Step.eoiFlag]
  cases hss : st.sess with
  | some s =>
    have : cursorOf st = s.cursor := by simp [cursorOf, hss]
    rw [this] at hc
    simp only [processStep, hss]
    exact hstep s st.nextSid hc
  | none =>
    have h0 : cursorOf st = 0 := by simp [cursorOf, hss]
    rw [h0] at hc
    simp only [processStep, hss]
    cases prog with
    | done v => rfl
    | fail e => rfl
    | req r k => exact hstep ⟨r, k, 0, st.nextSid⟩ (st.nextSid + 1) hc

/-- Resuming a protocol-disciplined continuation preserves the driver
invariant: a paused step stores a session that is again disciplined with
the same high-water mark, and a completed step clears the session. -/
theorem continueWith_inv (buf : List ι) (cursor sid nsid hw : Nat)
    (next : Comp ι ε ω) (eoi : Bool)
    (hcur : cursor ≤ hw) (hhw : hw ≤ buf.length) (ht : Tame cursor hw next) :
    (∀ st' e2, continueWith buf cursor sid nsid next eoi = .paused st' e2 →
      Inv st' ∧ st'.buffer = buf) ∧
    (∀ v st' e2, continueWith buf cursor sid nsid next eoi = .yielded v st' e2 →
      st'.sess = none) := by
  cases next with
  | done v =>
    refine ⟨fun st' e2 h => ?_, fun v2 st' e2 h => ?_⟩
    · exact absurd h (by simp [continueWith])
    · simp only [continueWith, Step.yielded.injEq] at h
      rw [← h.2.1]
  | fail e =>
    refine ⟨fun st' e2 h => ?_, fun v2 st' e2 h => ?_⟩ <;>
      exact absurd h (by simp [continueWith])
  | req r k =>
    refine ⟨fun st' e2 h => ?_, fun v2 st' e2 h => ?_⟩
    · simp only [continueWith, Step.paused.injEq] at h
      refine ⟨?_, by rw [← h.1]⟩
      rw [← h.1]
      intro s2 hs2
      simp only [Option.some.injEq] at hs2
      exact ⟨hw, by rw [← hs2]; exact hcur, hhw, by rw [← hs2]; exact ht⟩
    · exact absurd h (by simp [continueWith])

/-- Answering one request of a disciplined session preserves the driver
invariant. -/
theorem stepReq_inv (buf : List ι) (s : Session ι ε ω) (nsid hw : Nat)
    (hcur : s.cursor ≤ hw) (hhw : hw ≤ buf.length)
    (ht : Tame s.cursor hw (.req s.request s.k)) :
    (∀ st' e2, stepReq buf s nsid = .paused st' e2 → Inv st' ∧ st'.buffer = buf) ∧
    (∀ v st' e2, stepReq buf s nsid = .yielded v st' e2 → st'.sess = none) := by
  cases hr : s.request with
  | peek =>
    rw [hr] at ht
    cases ht with
    | peek hitem heoi =>
      simp only [stepReq, hr]
      cases hx : buf[s.cursor]? with
      | some x => exact continueWith_inv buf s.cursor s.sid nsid hw _ false hcur hhw (hitem x)
      | none => exact continueWith_inv buf s.cursor s.sid nsid hw _ true hcur hhw heoi
  | consume =>
    rw [hr] at ht
    cases ht with
    | consume hitem heoi =>
      simp only [stepReq, hr]
      cases hx : buf[s.cursor]? with
      | some x =>
        have hlt : s.cursor < buf.length := by
          rcases List.getElem?_eq_some_iff.mp hx with ⟨hl, -⟩
          exact hl
        exact continueWith_inv buf (s.cursor + 1) s.sid nsid (Nat.max hw (s.cursor + 1))
          _ false (Nat.le_max_right _ _) (Nat.max_le.mpr ⟨hhw, hlt⟩) (hitem x)
      | none => exact continueWith_inv buf s.cursor s.sid nsid hw _ true hcur hhw heoi
  | takeSnapshot =>
    rw [hr] at ht
    cases ht with
    | snap hsnap =>
      simp only [stepReq, hr]
      exact continueWith_inv buf s.cursor s.sid nsid hw _ false hcur hhw
        (hsnap ⟨s.sid, s.cursor⟩ rfl)
  | replay sn =>
    rw [hr] at ht
    cases ht with
    | replay hle hrep =>
      simp only [stepReq, hr]
      by_cases hsid : sn.sid = s.sid
      · rw [if_pos hsid]
        exact continueWith_inv buf sn.cursor s.sid nsid hw _ false hle hhw hrep
      · rw [if_neg hsid]
        exact ⟨fun st' e2 h => absurd h (by simp), fun v st' e2 h => absurd h (by simp)⟩

/-- One `#process` call preserves the driver invariant (given a disciplined
program for the spawn case). -/
theorem processStep_inv (prog : Comp ι ε ω) (st : DState ι ε ω)
    (hprog : Tame 0 0 prog) (hinv : Inv st) :
    (∀ st' e2, processStep prog st = .paused st' e2 → Inv st' ∧ st'.buffer = st.buffer) ∧
    (∀ v st' e2, processStep prog st = .yielded v st' e2 → st'.sess = none) := by
  cases hss : st.sess with
  | some s =>
    obtain ⟨hw, hcur, hhw, ht⟩ := hinv s hss
    simp only [processStep, hss]
    exact stepReq_inv st.buffer s st.nextSid hw hcur hhw ht
  | none =>
    simp only [processStep, hss]
    cases prog with
    | done v =>
      exact ⟨fun st' e2 h => absurd h (by simp), fun v2 st' e2 h => absurd h (by simp)⟩
    | fail e =>
      exact ⟨fun st' e2 h => absurd h (by simp), fun v2 st' e2 h => absurd h (by simp)⟩
    | req r k =>
      exact stepReq_inv st.buffer ⟨r, k, 0, st.nextSid⟩ (st.nextSid + 1) 0
        (Nat.le_refl 0) (Nat.zero_le _) hprog

/-- Prepending an output does not change the end-of-input flag. -/
theorem Res.eoi_consOut (r : Res ι ε ω) (v : ω) : (r.consOut v).eoi = r.eoi := by
  cases r <;> rfl

/-- The per-item drive loop, entered with the cursor strictly below the
buffer's end (as it always is right after a push), never answers a request
with end-of-input, and on normal return preserves the driver invariant. -/
theorem feedLoop_no_eoi (prog : Comp ι ε ω) (hprog : Tame 0 0 prog) :
    ∀ (fuel : Nat) (st : DState ι ε ω), Inv st →
    cursorOf st < st.buffer.length →
    (feedLoop prog st fuel).eoi = false ∧
    (∀ outs e st' f', feedLoop prog st fuel = .ok outs e st' f' → Inv st') := by
  intro fuel
  induction fuel with
  | zero =>
    intro st hinv hc
    exact ⟨rfl, fun outs e st' f' h => absurd h (by simp [feedLoop])⟩
  | succ fuel ih =>
    intro st hinv hc
    have hne := processStep_no_eoi prog st hc
    have hpi := processStep_inv prog st hprog hinv
    simp only [feedLoop]
    cases hps : processStep prog st with
    | failed e2 eoi =>
      rw [hps] at hne
      simp only [Step.eoiFlag] at hne
      subst hne
      exact ⟨rfl, fun outs e st' f' h => absurd h (by simp)⟩
    | yielded v st2 eoi =>
      rw [hps] at hne
      simp only [Step.eoiFlag] at hne
      subst hne
      have hs2 : st2.sess = none := hpi.2 v st2 false hps
      have hinv2 : Inv st2 := by
        intro s hsx
        rw [hs2] at hsx
        cases hsx
      dsimp only
      by_cases hc2 : cursorOf st2 < st2.buffer.length
      · rw [if_pos hc2]
        obtain ⟨he, hok⟩ := ih st2 hinv2 hc2
        rw [Res.orEoi_false, Res.eoi_consOut]
        refine ⟨he, fun outs e st' f' h => ?_⟩
        cases hr : feedLoop prog st2 fuel with
        | ok o2 e2 stx fx =>
          rw [hr] at h
          simp only [Res.consOut, Res.ok.injEq] at h
          obtain ⟨-, -, hst, -⟩ := h
          rw [← hst]
          exact hok o2 e2 stx fx hr
        | err o2 e2 er => rw [hr] at h; exact absurd h (by simp [Res.consOut])
        | spin o2 e2 => rw [hr] at h; exact absurd h (by simp [Res.consOut])
      · rw [if_neg hc2]
        refine ⟨rfl, fun outs e st' f' h => ?_⟩
        simp only [Res.ok.injEq] at h
        obtain ⟨-, -, hst, -⟩ := h
        rw [← hst]
        exact hinv2
    | paused st2 eoi =>
      rw [hps] at hne
      simp only [Step.eoiFlag] at hne
      subst hne
      have hinv2 : Inv st2 := (hpi.1 st2 false hps).1
      dsimp only
      by_cases hc2 : cursorOf st2 < st2.buffer.length
      · rw [if_pos hc2]
        rw [Res.orEoi_false]
        exact ih st2 hinv2 hc2
      · rw [if_neg hc2]
        refine ⟨rfl, fun outs e st' f' h => ?_⟩
        simp only [Res.ok.injEq] at h
        obtain ⟨-, -, hst, -⟩ := h
        rw [← hst]
        exact hinv2

/-- Pushing an item onto the buffer preserves the driver invariant. -/
theorem Inv_push (st : DState ι ε ω) (x : ι) (hinv : Inv st) :
    Inv { st with buffer := st.buffer ++ [x] } := by
  intro s hs
  obtain ⟨hw, hcur, hhw, ht⟩ := hinv s hs
  refine ⟨hw, hcur, ?_, ht⟩
  simp only [List.length_append, List.length_cons, List.length_nil]
  omega

/-- Under the invariant, the cursor never points past the buffer's end. -/
theorem Inv_cursorOf_le (st : DState ι ε ω) (hinv : Inv st) :
    cursorOf st ≤ st.buffer.length := by
  cases hss : st.sess with
  | none => simp [cursorOf, hss]
  | some s =>
    obtain ⟨hw, hcur, hhw, -⟩ := hinv s hss
    simp only [cursorOf, hss]
    omega

/-- The feeding phase of `parse` never answers a request with end-of-input
and preserves the driver invariant across its normal return. -/
theorem feedItems_no_eoi (prog : Comp ι ε ω) (hprog : Tame 0 0 prog) :
    ∀ (items : List ι) (st : DState ι ε ω) (fuel : Nat), Inv st →
    (feedItems prog st items fuel).eoi = false ∧
    (∀ outs e st' f', feedItems prog st items fuel = .ok outs e st' f' → Inv st') := by
  intro items
  induction items with
  | nil =>
    intro st fuel hinv
    refine ⟨rfl, fun outs e st' f' h => ?_⟩
    simp only [feedItems, Res.ok.injEq] at h
    obtain ⟨-, -, hst, -⟩ := h
    rw [← hst]
    exact hinv
  | cons x xs ih =>
    intro st fuel hinv
    have hinv1 : Inv { st with buffer := st.buffer ++ [x] } := Inv_push st x hinv
    have hc1 : cursorOf { st with buffer := st.buffer ++ [x] } <
        ({ st with buffer := st.buffer ++ [x] } : DState ι ε ω).buffer.length := by
      have hle := Inv_cursorOf_le st hinv
      have hcur : cursorOf { st with buffer := st.buffer ++ [x] } = cursorOf st := by
        cases hss : st.sess <;> simp [cursorOf, hss]
      simp only [hcur, List.length_append, List.length_cons, List.length_nil]
      omega
    obtain ⟨hfe, hfok⟩ := feedLoop_no_eoi prog hprog fuel _ hinv1 hc1
    simp only [feedItems]
    cases hl : feedLoop prog { st with buffer := st.buffer ++ [x] } fuel with
    | ok o e st2 f2 =>
      rw [hl] at hfe
      have he : e = false := hfe
      subst he
      have hinv2 : Inv st2 := hfok o false st2 f2 hl
      obtain ⟨hie, hiok⟩ := ih st2 f2 hinv2
      dsimp only
      rw [Res.orEoi_false]
      constructor
      · cases hr : feedItems prog st2 xs f2 with
        | ok o2 e2 stx fx => rw [hr] at hie; simpa [Res.consOuts, Res.eoi] using hie
        | err o2 e2 er => rw [hr] at hie; simpa [Res.consOuts, Res.eoi] using hie
        | spin o2 e2 => rw [hr] at hie; simpa [Res.consOuts, Res.eoi] using hie
      · intro outs e st' f' h
        cases hr : feedItems prog st2 xs f2 with
        | ok o2 e2 stx fx =>
          rw [hr] at h
          simp only [Res.consOuts, Res.ok.injEq] at h
          obtain ⟨-, -, hst, -⟩ := h
          rw [← hst]
          exact hiok o2 e2 stx fx hr
        | err o2 e2 er => rw [hr] at h; exact absurd h (by simp [Res.consOuts])
        | spin o2 e2 => rw [hr] at h; exact absurd h (by simp [Res.consOuts])
    | err o e er =>
      rw [hl] at hfe
      exact ⟨hfe, fun outs e2 st' f' h => absurd h (by simp)⟩
    | spin o e =>
      rw [hl] at hfe
      exact ⟨hfe, fun outs e2 st' f' h => absurd h (by simp)⟩

/-- Claim C9: a `parse` call with `streaming=true`, run from an
invariant-respecting driver state with a protocol-disciplined program (one
that only replays snapshot tokens it received, the source's §3 token
invariant), never answers any pending Peek/Consume request with
`EndOfInput` — when the cursor reaches the buffer's end the drive loop
returns control with the request unconsumed instead, so `EndOfInput` can
only ever be delivered by a non-streaming call's terminal flush loop. -/
theorem claim_C9_streaming_no_eoi (prog : Comp ι ε ω) (st : DState ι ε ω)
    (items : List ι) (fuel : Nat)
    (hprog : Tame 0 0 prog) (hinv : Inv st) :
    (parseD prog st items true fuel).eoi = false := by
  rw [parseD_stream]
  exact (feedItems_no_eoi prog hprog items st fuel hinv).1

/-- Protocol discipline is preserved by `try`/`catch` whenever the handler
is disciplined at every capture point. -/
theorem tame_tryCatch (h : PError ι ε → Comp ι ε ω)
    (hh : ∀ e cur hw, Tame cur hw (h e)) :
    ∀ {cur hw : Nat} {p : Comp ι ε ω}, Tame cur hw p → Tame cur hw (p.tryCatch h) := by
  intro cur hw p ht
  induction ht with
  | done => exact Tame.done
  | fail => exact hh _ _ _
  | peek hitem heoi ihitem iheoi =>
    exact Tame.peek ihitem iheoi
  | consume hitem heoi ihitem iheoi =>
    exact Tame.consume ihitem iheoi
  | snap hsnap ihsnap =>
    exact Tame.snap ihsnap
  | replay hle hrep ihrep =>
    exact Tame.replay hle ihrep

/-- Protocol discipline is preserved by sequencing whenever the
continuation is disciplined at every reachable cursor. -/
theorem tame_bind (f : α → Comp ι ε β)
    (hf : ∀ v cur hw, Tame cur hw (f v)) :
    ∀ {cur hw : Nat} {p : Comp ι ε α}, Tame cur hw p → Tame cur hw (p.bind f) := by
  intro cur hw p ht
  induction ht with
  | done => exact hf _ _ _
  | fail => exact Tame.fail
  | peek hitem heoi ihitem iheoi =>
    exact Tame.peek ihitem iheoi
  | consume hitem heoi ihitem iheoi =>
    exact Tame.consume ihitem iheoi
  | snap hsnap ihsnap =>
    exact Tame.snap ihsnap
  | replay hle hrep ihrep =>
    exact Tame.replay hle ihrep

/-- The `expect` leaf is protocol disciplined (it never replays anything). -/
theorem tame_expect (test : Option ι → Except (PError ι ε) Unit)
    (cur hw : Nat) : Tame cur hw (expectC test) := by
  apply tame_tryCatch _ (fun e cur2 hw2 => Tame.fail)
  apply Tame.peek
  · intro x
    cases test (toOptItem (Response.item x)) with
    | ok u => exact Tame.consume (fun x2 => Tame.done) Tame.done
    | error e => exact Tame.fail
  · cases test (toOptItem (Response.endOfInput : Response ι)) with
    | ok u => exact Tame.consume (fun x2 => Tame.done) Tame.done
    | error e => exact Tame.fail

/-- Witness for C9: streaming one item into the two-item sequence
`expect(equals(true))` then `expect(equals(true))` leaves the second leaf's
peek pending at the buffer's end — the drive loop suspends instead of
answering it with end-of-input. -/
theorem claim_C9_witness :
    (parseD ((expectC (equalsT true)).bind (fun _ => expectC (equalsT true))
        : Comp Bool Bool (Option Bool))
      freshState [true] true 9).eoi = false :=
  claim_C9_streaming_no_eoi _ freshState [true] 9
    (tame_bind _ (fun _ cur hw => tame_expect _ cur hw) (tame_expect _ 0 0))
    (fun _ h => nomatch h)

end Theorems

end Parsable
